import Mathlib

/-!
Verification of the prefix-to-range conversion and the batch-replay
reference model of `src/main.rs`.

Byte strings (Rust `Vec<u8>`) are modelled as `List Nat` together with the
side condition that every element is `< 256`.  The lexicographic order of
`Vec<u8>` (unsigned bytes, shorter-is-less on true prefixes) is modelled by
the boolean comparison `ltB` below.
-/
namespace ScyllaBatch

/-- Strict lexicographic order on byte strings: compare bytes left to right;
a proper prefix is smaller than any of its extensions.  This is the order
Rust's `Ord for Vec<u8>` gives, which `BTreeMap`/`BTreeSet` use. -/
def ltB : List Nat → List Nat → Bool
  | _, [] => false
  | [], _ :: _ => true
  | a :: as, b :: bs => if a < b then true else if b < a then false else ltB as bs

/-- Non-strict lexicographic order: `ltB` or equality. -/
def leB (x y : List Nat) : Bool := ltB x y || x == y

/-- Rust's `std::ops::Bound`. -/
inductive Bound (α : Type) where
  | included : α → Bound α
  | excluded : α → Bound α
  | unbounded : Bound α
deriving DecidableEq, Repr

/-- Function `get_upper_bound_option` from `src/main.rs`: scan the bytes of
`key_prefix` from the last position towards the first (realised here by
structural recursion, which prefers an answer found in the tail); at the
right-most position `i` holding a byte `< 255`, return the first `i + 1`
bytes with the byte at `i` incremented; if every byte is `255` (or the
input is empty), return `none`. -/
def get_upper_bound_option : List Nat → Option (List Nat)
  | [] => none
  | a :: rest =>
    match get_upper_bound_option rest with
    | some q => some (a :: q)
    | none => if a < 255 then some [a + 1] else none

/-- Function `get_upper_bound` from `src/main.rs`. -/
def get_upper_bound (keyPre : List Nat) : Bound (List Nat) :=
  match get_upper_bound_option keyPre with
  | none => Bound.unbounded
  | some upper => Bound.excluded upper

/-- Function `get_interval` from `src/main.rs`: the half-open range associated to a
key prefix. -/
def get_interval (keyPre : List Nat) : Bound (List Nat) × Bound (List Nat) :=
  (Bound.included keyPre, get_upper_bound keyPre)

/-- Whether `k` satisfies a lower bound, with Rust's `RangeBounds`
semantics. -/
def memLower (k : List Nat) : Bound (List Nat) → Bool
  | Bound.included p => leB p k
  | Bound.excluded p => ltB p k
  | Bound.unbounded => true

/-- Whether `k` satisfies an upper bound, with Rust's `RangeBounds`
semantics. -/
def memUpper (k : List Nat) : Bound (List Nat) → Bool
  | Bound.included q => leB k q
  | Bound.excluded q => ltB k q
  | Bound.unbounded => true

/-- Whether `k` lies inside a `(Bound, Bound)` interval. -/
def memInterval (k : List Nat) (iv : Bound (List Nat) × Bound (List Nat)) : Bool :=
  memLower k iv.1 && memUpper k iv.2

/-! ## The write-operation model and the reference model -/
/-- Type `WriteOperation` from `src/main.rs`.  Constructor `deletePre` models the
`DeletePrefix { key_prefix }` variant. -/
inductive WriteOperation where
  | delete : List Nat → WriteOperation
  | deletePre : List Nat → WriteOperation
  | put : List Nat → List Nat → WriteOperation
deriving DecidableEq, Repr

/-- Type `Batch` from `src/main.rs`. -/
structure Batch where
  operations : List WriteOperation
deriving DecidableEq, Repr

/-- The reference model `BTreeMap<Vec<u8>, Vec<u8>>`, represented as an
association list kept sorted by `ltB` on keys. -/
abbrev Model := List (List Nat × List Nat)

/-- Rust's `BTreeMap::insert`: sorted insertion, replacing the stored value when the
key is already present. -/
def mapInsert : Model → List Nat → List Nat → Model
  | [], k, v => [(k, v)]
  | e :: rest, k, v =>
    if ltB k e.1 then (k, v) :: e :: rest
    else if k == e.1 then (k, v) :: rest
    else e :: mapInsert rest k v

/-- Rust's `BTreeMap::remove`: the entry carrying the given key (if any) is
dropped. -/
def mapRemove (m : Model) (k : List Nat) : Model :=
  m.filter (fun e => !(e.1 == k))

/-- Rust's `BTreeMap::get`-style lookup. -/
def mapFind? : Model → List Nat → Option (List Nat)
  | [], _ => none
  | e :: rest, k => if e.1 == k then some e.2 else mapFind? rest k

/-- One step of the loop body of `update_via_batch` from `src/main.rs`.  For
`DeletePrefix`, the keys of the current model lying in
`get_interval key_prefix` are collected (`BTreeMap::range`) and then removed
one by one, exactly as in the source. -/
def applyOperation (m : Model) : WriteOperation → Model
  | WriteOperation.put k v => mapInsert m k v
  | WriteOperation.delete k => mapRemove m k
  | WriteOperation.deletePre kp =>
    let keyList := (m.filter (fun e => memInterval e.1 (get_interval kp))).map (fun e => e.1)
    keyList.foldl mapRemove m

/-- Function `update_via_batch` from `src/main.rs`: fold the batch's operations, in
order, over the reference model. -/
def update_via_batch (m : Model) (batch : Batch) : Model :=
  batch.operations.foldl applyOperation m

/-! ## First-byte tracking and the replay loop -/
/-- The key (for `Put`/`Delete`) or key prefix (for `DeletePrefix`) field of
an operation. -/
def opKey : WriteOperation → List Nat
  | WriteOperation.put k _ => k
  | WriteOperation.delete k => k
  | WriteOperation.deletePre kp => kp

/-- Function `get_first_entry` from `src/main.rs`: reads byte index `0` of the
operation's key or key prefix.  The source indexes unconditionally and
panics on an empty key; the panic is modelled by `none`. -/
def get_first_entry (op : WriteOperation) : Option Nat :=
  (opKey op).head?

/-- Rust's `BTreeSet<u8>::insert`: sorted insertion without duplication. -/
def byteInsert : List Nat → Nat → List Nat
  | [], x => [x]
  | a :: rest, x =>
    if x < a then x :: a :: rest else if x == a then a :: rest else a :: byteInsert rest x

/-- Loop body of `update_firsts` from `src/main.rs` over the operation list:
insert the first byte of every operation into the running set, propagating
the `get_first_entry` panic. -/
def update_firsts_ops : List Nat → List WriteOperation → Option (List Nat)
  | fs, [] => some fs
  | fs, op :: rest =>
    match get_first_entry op with
    | none => none
    | some x => update_firsts_ops (byteInsert fs x) rest

/-- Function `update_firsts` from `src/main.rs`. -/
def update_firsts (fs : List Nat) (batch : Batch) : Option (List Nat) :=
  update_firsts_ops fs batch.operations

/-- The replay loop of `main` in `src/main.rs`, restricted to the engine
state the claims concern: per batch, `update_firsts` then `update_via_batch`
(the store round-trips are external collaborators). -/
def replayLoop : List Nat × Model → List Batch → Option (List Nat × Model)
  | st, [] => some st
  | st, b :: rest =>
    match update_firsts st.1 b with
    | none => none
    | some fs => replayLoop (fs, update_via_batch st.2 b) rest

/-- The full replay of `main`, starting from the empty first-byte set and the
empty reference model. -/
def replay (batches : List Batch) : Option (List Nat × Model) :=
  replayLoop ([], []) batches

/-- Whether the first byte of `k` lies in the running first-byte set. -/
def firstByteCovered (fs : List Nat) (k : List Nat) : Bool :=
  match k.head? with
  | some b => fs.contains b
  | none => false

/-! ## Divergence diagnostics (`detect_collision`) -/
/-- Rust's `BTreeSet<Vec<u8>>::insert`: sorted insertion without duplication. -/
def setInsert : List (List Nat) → List Nat → List (List Nat)
  | [], k => [k]
  | e :: rest, k =>
    if ltB k e then k :: e :: rest else if k == e then e :: rest else e :: setInsert rest k

/-- The partitioning loop of `detect_collision`: each operation's key or key
prefix is inserted into the corresponding `BTreeSet`, in batch order. -/
def collectSets (acc : List (List Nat) × List (List Nat) × List (List Nat)) :
    List WriteOperation → List (List Nat) × List (List Nat) × List (List Nat)
  | [] => acc
  | op :: rest =>
    match op with
    | WriteOperation.put k _ => collectSets (setInsert acc.1 k, acc.2.1, acc.2.2) rest
    | WriteOperation.delete k => collectSets (acc.1, setInsert acc.2.1 k, acc.2.2) rest
    | WriteOperation.deletePre kp => collectSets (acc.1, acc.2.1, setInsert acc.2.2 kp) rest

/-- Function `detect_collision` from `src/main.rs`, modelled as the statistics it
prints: the sizes of the three distinct key/prefix sets, the size of the
intersection of the Put-key set with the Delete-key set (`BTreeSet
intersection`), and, for each distinct `DeletePrefix` prefix, the pair
(prefix length, number of the batch's Put keys lying in `get_interval` of
that prefix, i.e. in the `BTreeSet::range` over that interval). -/
def detect_collision (batch : Batch) : Nat × Nat × Nat × Nat × List (Nat × Nat) :=
  let sets := collectSets ([], [], []) batch.operations
  let key_puts := sets.1
  let key_deletes := sets.2.1
  let key_pre_deletes := sets.2.2
  let intersection := key_puts.filter (fun k => key_deletes.contains k)
  let per := key_pre_deletes.map (fun kp =>
    (kp.length, (key_puts.filter (fun k => memInterval k (get_interval kp))).length))
  (key_puts.length, key_deletes.length, key_pre_deletes.length, intersection.length, per)

/-- Sortedness of a `BTreeSet<Vec<u8>>` model under the lexicographic
order. -/
def SortedB (s : List (List Nat)) : Prop := List.Pairwise (fun a b => ltB a b = true) s

/-- Spec-side definition: the set of distinct keys `Put` by the batch. -/
def specPutKeys (batch : Batch) : Finset (List Nat) :=
  (batch.operations.filterMap (fun op => match op with
    | WriteOperation.put k _ => some k
    | _ => none)).toFinset

/-- Spec-side definition: the set of distinct keys `Delete`d by the batch. -/
def specDeleteKeys (batch : Batch) : Finset (List Nat) :=
  (batch.operations.filterMap (fun op => match op with
    | WriteOperation.delete k => some k
    | _ => none)).toFinset

/-- Spec-side definition: the set of distinct `DeletePrefix` prefixes of the
batch. -/
def specPreKeys (batch : Batch) : Finset (List Nat) :=
  (batch.operations.filterMap (fun op => match op with
    | WriteOperation.deletePre kp => some kp
    | _ => none)).toFinset

/-! ## Script decoding (`read_operation`) -/
/-- Worker for Rust's `str::split` with a non-empty pattern, on character
lists: scan left to right, emitting a chunk whenever the separator matches
(`acc` is the current chunk, reversed).  `fuel` bounds the number of steps;
`splitOnList` supplies enough fuel for the whole input. -/
def splitGo (sep : List Char) : Nat → List Char → List Char → List (List Char)
  | 0, l, acc => [acc.reverse ++ l]
  | _ + 1, [], acc => [acc.reverse]
  | fuel + 1, c :: rest, acc =>
    if sep.isPrefixOf (c :: rest) then
      acc.reverse :: splitGo sep fuel (List.drop sep.length (c :: rest)) []
    else
      splitGo sep fuel rest (c :: acc)

/-- Rust's `str::split` with a non-empty pattern, on character lists. -/
def splitOnList (sep l : List Char) : List (List Char) :=
  splitGo sep (l.length + 1) l []

/-- Rust's `str::trim` (for the ASCII inputs of the script format). -/
def trimChars (l : List Char) : List Char :=
  ((l.dropWhile Char.isWhitespace).reverse.dropWhile Char.isWhitespace).reverse

/-- Decimal parsing of an all-digit chunk, as `str::parse` of an unsigned
integer: empty or non-digit input is a parse error. -/
def parseNat? (l : List Char) : Option Nat :=
  if l = [] then none
  else if l.all Char.isDigit then
    some (l.foldl (fun n c => n * 10 + (c.toNat - 48)) 0)
  else none

/-- Rust's `str::parse::<u8>`: decimal parse failing on values above `255`. -/
def parse_u8 (l : List Char) : Option Nat :=
  match parseNat? l with
  | some n => if n < 256 then some n else none
  | none => none

/-- Function `read_vec` from `src/main.rs`: split on commas, trim and parse each piece
as a `u8`; any failure is the `expect` panic, modelled by `none`. -/
def read_vec (input : List Char) : Option (List Nat) :=
  (splitOnList [','] input).mapM (fun s => parse_u8 (trimChars s))

/-- The pattern `" Put key=["` of `read_operation`. -/
def patPut : List Char := (" Put key=[").data

/-- The pattern `"] |value|="` of `read_operation`. -/
def patValue : List Char := ("] |value|=").data

/-- The pattern `" Delete key=["` of `read_operation`. -/
def patDelete : List Char := (" Delete key=[").data

/-- The pattern `" DeletePrefix key_prefix=["` of `read_operation`. -/
def patDeletePre : List Char := (" DeletePrefix key_prefix=[").data

/-- Function `read_operation` from `src/main.rs`: check the leading operation index,
then try the `Put`, `Delete` and `DeletePrefix` line shapes in that order;
every `panic!`/`unwrap`/`expect` of the source is modelled by `none`.  Note
that for a `Put` line the source parses the key byte list but sets the value
to `vec![0]`: the text after `|value|=` (the value's length in the producing
log) is ignored. -/
def read_operation (i_operation : Nat) (line : List Char) : Option WriteOperation :=
  match parseNat? ((splitOnList [':'] line).headD []) with
  | none => none
  | some j_operation =>
    if i_operation ≠ j_operation then none
    else
      let partsPut := splitOnList patPut line
      if partsPut.length = 2 then
        let parts_b := splitOnList patValue (partsPut.getD 1 [])
        if parts_b.length ≠ 2 then none
        else
          match read_vec (parts_b.headD []) with
          | none => none
          | some key => some (WriteOperation.put key [0])
      else
        let partsDel := splitOnList patDelete line
        if partsDel.length = 2 then
          match read_vec (partsDel.getD 1 []).dropLast with
          | none => none
          | some key => some (WriteOperation.delete key)
        else
          let partsPre := splitOnList patDeletePre line
          if partsPre.length = 2 then
            match read_vec (partsPre.getD 1 []).dropLast with
            | none => none
            | some kp => some (WriteOperation.deletePre kp)
          else none

/-! ## Theorems -/

theorem ltB_irrefl (x : List Nat) : ltB x x = false := by
  induction x with
  | nil => rfl
  | cons a as ih => simp [ltB, ih]

theorem ltB_trans {x y z : List Nat} (hxy : ltB x y = true) (hyz : ltB y z = true) :
    ltB x z = true := by
  induction x generalizing y z with
  | nil =>
    cases y with
    | nil => simp [ltB] at hxy
    | cons b bs =>
      cases z with
      | nil => simp [ltB] at hyz
      | cons c cs => simp [ltB]
  | cons a as ih =>
    cases y with
    | nil => simp [ltB] at hxy
    | cons b bs =>
      cases z with
      | nil => simp [ltB] at hyz
      | cons c cs =>
        simp only [ltB] at hxy hyz ⊢
        split at hxy
        · split at hyz
          · split
            · rfl
            · split
              · omega
              · omega
          · split at hyz
            · exact absurd hyz (by simp)
            · split
              · rfl
              · split
                · omega
                · omega
        · split at hxy
          · exact absurd hxy (by simp)
          · split at hyz
            · split
              · rfl
              · split
                · omega
                · omega
            · split at hyz
              · exact absurd hyz (by simp)
              · split
                · rfl
                · split
                  · omega
                  · exact ih hxy hyz

theorem ltB_or_eq_or_gt (x y : List Nat) : ltB x y = true ∨ x = y ∨ ltB y x = true := by
  induction x generalizing y with
  | nil =>
    cases y with
    | nil => right; left; rfl
    | cons b bs => left; simp [ltB]
  | cons a as ih =>
    cases y with
    | nil => right; right; simp [ltB]
    | cons b bs =>
      rcases Nat.lt_trichotomy a b with h | h | h
      · left; simp [ltB, h]
      · subst h
        rcases ih bs with h' | h' | h'
        · left; simp [ltB, h']
        · right; left; rw [h']
        · right; right; simp [ltB, h']
      · right; right; simp [ltB, h, Nat.not_lt_of_lt h]

theorem leB_of_isPrefix {p k : List Nat} (h : List.IsPrefix p k) : leB p k = true := by
  induction p generalizing k with
  | nil =>
    cases k with
    | nil => simp [leB, ltB]
    | cons c cs => simp [leB, ltB]
  | cons a as ih =>
    cases k with
    | nil => exact absurd (List.IsPrefix.length_le h) (by simp)
    | cons c cs =>
      obtain ⟨t, ht⟩ := h
      simp only [List.cons_append, List.cons.injEq] at ht
      obtain ⟨rfl, ht⟩ := ht
      have := @ih cs ⟨t, ht⟩
      simp only [leB, ltB, Bool.or_eq_true] at this ⊢
      rcases this with h' | h'
      · left; simp [h']
      · simp only [beq_iff_eq] at h'
        subst h'
        simp

/-- Function `get_upper_bound_option` returns `none` exactly when every byte of the
input is at least `255` (for valid byte strings: every byte equals `255`). -/
theorem get_upper_bound_option_eq_none_iff (p : List Nat) :
    get_upper_bound_option p = none ↔ ∀ b ∈ p, ¬ b < 255 := by
  induction p with
  | nil => simp [get_upper_bound_option]
  | cons a rest ih =>
    cases hrec : get_upper_bound_option rest with
    | some q =>
      simp only [get_upper_bound_option, hrec]
      constructor
      · intro h; simp at h
      · intro h
        have hnone := ih.mpr (fun b hb => h b (List.mem_cons_of_mem _ hb))
        simp [hnone] at hrec
    | none =>
      by_cases ha : a < 255
      · simp only [get_upper_bound_option, hrec, if_pos ha]
        constructor
        · intro h; simp at h
        · intro h; exact absurd ha (h a (List.mem_cons_self _ _))
      · simp only [get_upper_bound_option, hrec, if_neg ha]
        constructor
        · intro _ b hb
          rcases List.mem_cons.mp hb with rfl | hb'
          · exact ha
          · exact (ih.mp hrec) b hb'
        · intro _; trivial

/-- Structure of a successful `get_upper_bound_option`: the input splits as
`pre ++ m :: suf` where `m` is the right-most byte below `255` (every byte
of `suf` is at least `255`), and the result is `pre ++ [m + 1]`. -/
theorem get_upper_bound_option_eq_some {p q : List Nat}
    (h : get_upper_bound_option p = some q) :
    ∃ pre m suf, p = pre ++ m :: suf ∧ m < 255 ∧ (∀ b ∈ suf, ¬ b < 255) ∧
      q = pre ++ [m + 1] := by
  induction p generalizing q with
  | nil => simp [get_upper_bound_option] at h
  | cons a rest ih =>
    cases hrec : get_upper_bound_option rest with
    | some q' =>
      simp only [get_upper_bound_option, hrec, Option.some.injEq] at h
      obtain ⟨pre, m, suf, hsplit, hm, hsuf, hq'⟩ := ih hrec
      exact ⟨a :: pre, m, suf, by simp [hsplit], hm, hsuf, by simp [← h, hq']⟩
    | none =>
      by_cases ha : a < 255
      · simp only [get_upper_bound_option, hrec, if_pos ha, Option.some.injEq] at h
        exact ⟨[], a, rest, by simp, ha, (get_upper_bound_option_eq_none_iff rest).mp hrec,
          by simp [← h]⟩
      · simp [get_upper_bound_option, hrec, if_neg ha] at h

theorem ltB_cons_cons_self (a : Nat) (as bs : List Nat) :
    ltB (a :: as) (a :: bs) = ltB as bs := by
  simp [ltB]

theorem leB_cons_cons_self (a : Nat) (as bs : List Nat) :
    leB (a :: as) (a :: bs) = leB as bs := by
  simp [leB, ltB_cons_cons_self, List.cons_beq_cons]

theorem ltB_cons_cons_of_lt {a c : Nat} (h : a < c) (as bs : List Nat) :
    ltB (a :: as) (c :: bs) = true := by
  simp [ltB, h]

theorem ltB_cons_cons_of_gt {a c : Nat} (h : c < a) (as bs : List Nat) :
    ltB (a :: as) (c :: bs) = false := by
  simp [ltB, h, Nat.not_lt_of_lt h]

theorem leB_cons_cons_of_gt {a c : Nat} (h : c < a) (as bs : List Nat) :
    leB (a :: as) (c :: bs) = false := by
  have : a ≠ c := by omega
  simp [leB, ltB_cons_cons_of_gt h, List.cons_beq_cons, this]

/-- For a pattern whose bytes are all at least `255`, lying `leB`-at-or-above
it is the same as extending it, provided the key is a valid byte string. -/
theorem leB_iff_isPrefix_of_max {p k : List Nat} (hp : ∀ b ∈ p, ¬ b < 255)
    (hk : ∀ b ∈ k, b < 256) : leB p k = true ↔ p <+: k := by
  induction p generalizing k with
  | nil => cases k <;> simp [leB, ltB, List.nil_prefix]
  | cons a p' ih =>
    cases k with
    | nil => simp [leB, ltB, List.prefix_nil]
    | cons c cs =>
      have ha : ¬ a < 255 := hp a (List.mem_cons_self _ _)
      have hc : c < 256 := hk c (List.mem_cons_self _ _)
      have hp' : ∀ b ∈ p', ¬ b < 255 := fun b hb => hp b (List.mem_cons_of_mem _ hb)
      have hcs : ∀ b ∈ cs, b < 256 := fun b hb => hk b (List.mem_cons_of_mem _ hb)
      by_cases heq : a = c
      · subst heq
        rw [leB_cons_cons_self, List.cons_prefix_cons]
        simp [ih hp' hcs]
      · have hgt : c < a := by omega
        rw [leB_cons_cons_of_gt hgt, List.cons_prefix_cons]
        simp [heq]

/-- Core membership computation for the bounded case: with the prefix split
as `pre ++ m :: suf` (all of `suf` at least `255`) and the upper bound
`pre ++ [m + 1]`, a valid key lies between the two exactly when it extends
the prefix. -/
theorem leB_and_ltB_iff_isPrefix {m : Nat} {suf : List Nat}
    (hsuf : ∀ b ∈ suf, ¬ b < 255) :
    ∀ (pre k : List Nat), (∀ b ∈ k, b < 256) →
      ((leB (pre ++ m :: suf) k && ltB k (pre ++ [m + 1])) = true ↔
        (pre ++ m :: suf) <+: k) := by
  intro pre
  induction pre with
  | nil =>
    intro k hk
    cases k with
    | nil => simp [leB, ltB, List.prefix_nil]
    | cons c cs =>
      have hc : c < 256 := hk c (List.mem_cons_self _ _)
      have hcs : ∀ b ∈ cs, b < 256 := fun b hb => hk b (List.mem_cons_of_mem _ hb)
      simp only [List.nil_append]
      have hupper : ltB (c :: cs) [m + 1] = (decide (c < m + 1)) := by
        by_cases h : c < m + 1
        · simp [ltB, h]
        · have : m + 1 ≤ c := by omega
          rcases Nat.lt_or_ge (m + 1) c with h' | h'
          · simp [ltB_cons_cons_of_gt h', h]
          · have : c = m + 1 := by omega
            subst this
            simp [ltB_cons_cons_self, ltB, h]
      rcases Nat.lt_trichotomy c m with hcm | hcm | hcm
      · have : ¬ (m :: suf) <+: (c :: cs) := by
          rw [List.cons_prefix_cons]; omega
        rw [leB_cons_cons_of_gt hcm]
        simp [this]
      · subst hcm
        rw [leB_cons_cons_self, hupper, List.cons_prefix_cons]
        have : c < c + 1 := Nat.lt_succ_self c
        simp [this, leB_iff_isPrefix_of_max hsuf hcs]
      · have : ¬ (m :: suf) <+: (c :: cs) := by
          rw [List.cons_prefix_cons]; omega
        rw [hupper]
        have : ¬ c < m + 1 := by omega
        simp [this]
        intro h; omega
  | cons a pre' ih =>
    intro k hk
    cases k with
    | nil => simp [leB, ltB, List.prefix_nil]
    | cons c cs =>
      have hcs : ∀ b ∈ cs, b < 256 := fun b hb => hk b (List.mem_cons_of_mem _ hb)
      simp only [List.cons_append]
      rcases Nat.lt_trichotomy a c with hac | hac | hac
      · rw [List.cons_prefix_cons]
        have h1 : ltB (c :: cs) (a :: (pre' ++ [m + 1])) = false :=
          ltB_cons_cons_of_gt hac _ _
        simp [h1]
        omega
      · subst hac
        rw [leB_cons_cons_self, ltB_cons_cons_self, List.cons_prefix_cons]
        simp [ih cs hcs]
      · rw [leB_cons_cons_of_gt hac, List.cons_prefix_cons]
        simp
        omega

theorem ltB_append_left (pre x y : List Nat) : ltB (pre ++ x) (pre ++ y) = ltB x y := by
  induction pre with
  | nil => rfl
  | cons a pre' ih => rw [List.cons_append, List.cons_append, ltB_cons_cons_self, ih]

/-- Forward half of the membership law, with no validity hypothesis: every
key extending the prefix lies inside `get_interval` of the prefix. -/
theorem memInterval_of_isPrefix {p k : List Nat} (h : p <+: k) :
    memInterval k (get_interval p) = true := by
  obtain ⟨t, rfl⟩ := h
  simp only [memInterval, get_interval, get_upper_bound, memLower, Bool.and_eq_true]
  refine ⟨leB_of_isPrefix ⟨t, rfl⟩, ?_⟩
  cases hub : get_upper_bound_option p with
  | none => simp [memUpper]
  | some q =>
    obtain ⟨pre, m, suf, hsplit, hm, hsuf, hq⟩ := get_upper_bound_option_eq_some hub
    subst hsplit
    subst hq
    simp only [memUpper]
    have : (pre ++ m :: suf) ++ t = pre ++ (m :: (suf ++ t)) := by simp
    rw [this, ltB_append_left]
    exact ltB_cons_cons_of_lt (Nat.lt_succ_self m) _ _

/-- The membership law: a valid byte string lies inside `get_interval p`
exactly when it extends `p`. -/
theorem memInterval_get_interval_iff {p k : List Nat} (hk : ∀ b ∈ k, b < 256) :
    memInterval k (get_interval p) = true ↔ p <+: k := by
  constructor
  · intro h
    simp only [memInterval, get_interval, get_upper_bound, memLower, Bool.and_eq_true] at h
    obtain ⟨hlo, hhi⟩ := h
    cases hub : get_upper_bound_option p with
    | none =>
      exact (leB_iff_isPrefix_of_max ((get_upper_bound_option_eq_none_iff p).mp hub) hk).mp hlo
    | some q =>
      rw [hub] at hhi
      simp only [memUpper] at hhi
      obtain ⟨pre, m, suf, hsplit, hm, hsuf, hq⟩ := get_upper_bound_option_eq_some hub
      subst hsplit
      subst hq
      exact (leB_and_ltB_iff_isPrefix hsuf pre k hk).mp (by simp [hlo, hhi])
  · exact memInterval_of_isPrefix

theorem leB_of_ltB {x y : List Nat} (h : ltB x y = true) : leB x y = true := by
  simp [leB, h]

theorem leB_refl (x : List Nat) : leB x x = true := by
  simp [leB]

example : get_upper_bound_option [1, 255] = some [2] := by decide

example : get_upper_bound_option [255, 255] = none := by decide

example : get_upper_bound_option [] = none := by decide

example : get_upper_bound_option [1, 3] = some [1, 4] := by decide

example : memInterval [1, 200] (get_interval [1]) = true := by decide

example : memInterval [2] (get_interval [1]) = false := by decide

/-- C1: Membership law for the prefix-to-range conversion: for every
byte-string prefix `p` and every byte string `k`, `k` falls within the
half-open interval returned by `get_interval p` (lower bound `Included p`,
upper bound `Excluded` or `Unbounded`, with Rust range semantics under the
lexicographic unsigned-byte order) if and only if the first `p.length` bytes
of `k` equal `p`. -/
theorem C1_prefix_range_membership (p k : List Nat)
    (hp : ∀ b ∈ p, b < 256) (hk : ∀ b ∈ k, b < 256) :
    memInterval k (get_interval p) = true ↔ p <+: k :=
  memInterval_get_interval_iff hk

/-- Witness for C1 at `p = [1]`, `k = [1, 2]`. -/
theorem C1_prefix_range_membership_witness :
    (∀ b ∈ [1], b < 256) ∧ (∀ b ∈ [1, 2], b < 256) ∧
      (memInterval [1, 2] (get_interval [1]) = true ↔ [1] <+: [1, 2]) :=
  ⟨by decide, by decide, C1_prefix_range_membership [1] [1, 2] (by decide) (by decide)⟩

/-- C2: Upper-bound construction. For every valid prefix `p`: if `p` is
non-empty and not entirely `255` bytes, `get_upper_bound_option p` returns
`some q` where `q` is `p` truncated just after its right-most non-`255` byte
with that byte incremented, and `q` is the lexicographically smallest byte
string strictly greater than every string having `p` as a prefix; if `p`
consists entirely of `255` bytes it returns `none`; and for the empty prefix
the interval is `[empty, unbounded)`. -/
theorem C2_upper_bound_construction (p : List Nat) (hp : ∀ b ∈ p, b < 256) :
    (p ≠ [] → ¬ (∀ b ∈ p, b = 255) →
      ∃ q, get_upper_bound_option p = some q ∧
        (∃ pre m suf, p = pre ++ m :: suf ∧ m ≠ 255 ∧ (∀ b ∈ suf, b = 255) ∧
          q = pre ++ [m + 1]) ∧
        (∀ s, p <+: s → ltB s q = true) ∧
        (∀ r, (∀ b ∈ r, b < 256) →
          (∀ s, (∀ b ∈ s, b < 256) → p <+: s → ltB s r = true) → leB q r = true)) ∧
    ((∀ b ∈ p, b = 255) → get_upper_bound_option p = none) ∧
    (get_interval [] = (Bound.included [], Bound.unbounded)) := by
  refine ⟨?_, ?_, rfl⟩
  · intro _ hnall
    cases hub : get_upper_bound_option p with
    | none =>
      exfalso
      apply hnall
      intro b hb
      have h1 := (get_upper_bound_option_eq_none_iff p).mp hub b hb
      have h2 := hp b hb
      omega
    | some q =>
      obtain ⟨pre, m, suf, hsplit, hm, hsuf, hq⟩ := get_upper_bound_option_eq_some hub
      refine ⟨q, rfl, ⟨pre, m, suf, hsplit, by omega, ?_, hq⟩, ?_, ?_⟩
      · intro b hb
        have h1 := hsuf b hb
        have h2 := hp b (by rw [hsplit]; exact List.mem_append_right _ (List.mem_cons_of_mem _ hb))
        omega
      · intro s hs
        have hmem := memInterval_of_isPrefix hs
        simp only [memInterval, get_interval, get_upper_bound, hub, memLower, memUpper,
          Bool.and_eq_true] at hmem
        exact hmem.2
      · intro r hr hbound
        rcases ltB_or_eq_or_gt q r with h | h | h
        · exact leB_of_ltB h
        · rw [h]; exact leB_refl r
        · exfalso
          have hpr : ltB p r = true := hbound p hp (List.prefix_refl p)
          have hmem : memInterval r (get_interval p) = true := by
            simp only [memInterval, get_interval, get_upper_bound, hub, memLower, memUpper,
              Bool.and_eq_true]
            exact ⟨leB_of_ltB hpr, h⟩
          have hpre : p <+: r := (memInterval_get_interval_iff hr).mp hmem
          have := hbound r hr hpre
          rw [ltB_irrefl r] at this
          exact absurd this (by simp)
  · intro h
    exact (get_upper_bound_option_eq_none_iff p).mpr (fun b hb => by have := h b hb; omega)

/-- Witness for C2 at `p = [1, 255]`. -/
theorem C2_upper_bound_construction_witness :
    (∀ b ∈ [1, 255], b < 256) ∧
    (((1 : Nat) :: [255] ≠ [] → ¬ (∀ b ∈ [1, 255], b = 255) →
      ∃ q, get_upper_bound_option [1, 255] = some q ∧
        (∃ pre m suf, [1, 255] = pre ++ m :: suf ∧ m ≠ 255 ∧ (∀ b ∈ suf, b = 255) ∧
          q = pre ++ [m + 1]) ∧
        (∀ s, [1, 255] <+: s → ltB s q = true) ∧
        (∀ r, (∀ b ∈ r, b < 256) →
          (∀ s, (∀ b ∈ s, b < 256) → [1, 255] <+: s → ltB s r = true) → leB q r = true)) ∧
      ((∀ b ∈ [1, 255], b = 255) → get_upper_bound_option [1, 255] = none) ∧
      (get_interval [] = (Bound.included [], Bound.unbounded))) :=
  ⟨by decide, C2_upper_bound_construction [1, 255] (by decide)⟩

example :
    update_via_batch [] (Batch.mk [WriteOperation.put [5] [1], WriteOperation.delete [5],
      WriteOperation.put [5] [2]]) = [([5], [2])] := by decide

example :
    update_via_batch (update_via_batch [] (Batch.mk [WriteOperation.put [1, 2] [9],
      WriteOperation.put [1, 3] [9]])) (Batch.mk [WriteOperation.deletePre [1]]) = [] := by
  decide

theorem mapFind?_eq_none_iff (m : Model) (k : List Nat) :
    mapFind? m k = none ↔ ∀ e ∈ m, e.1 ≠ k := by
  induction m with
  | nil => simp [mapFind?]
  | cons e rest ih =>
    by_cases h : e.1 = k
    · simp [mapFind?, h]
    · simp only [mapFind?, beq_iff_eq, if_neg h, ih, List.mem_cons]
      constructor
      · rintro h' e' (rfl | he')
        · exact h
        · exact h' e' he'
      · intro h' e' he'
        exact h' e' (Or.inr he')

theorem foldl_mapRemove (l : List (List Nat)) (m : Model) :
    l.foldl mapRemove m = m.filter (fun e => !(l.contains e.1)) := by
  induction l generalizing m with
  | nil => simp
  | cons k ks ih =>
    rw [List.foldl_cons, ih, mapRemove, List.filter_filter]
    apply List.filter_congr
    intro e _
    simp only [List.contains_cons, Bool.not_or, Bool.and_comm]

theorem mapFind?_mapInsert_self (m : Model) (k v : List Nat) :
    mapFind? (mapInsert m k v) k = some v := by
  induction m with
  | nil => simp [mapInsert, mapFind?]
  | cons e rest ih =>
    by_cases h1 : ltB k e.1 = true
    · simp [mapInsert, h1, mapFind?]
    · by_cases h2 : k = e.1
      · subst h2
        simp [mapInsert, ltB_irrefl, mapFind?]
      · have h3 : ¬ (e.1 = k) := fun h => h2 h.symm
        simp [mapInsert, h1, h2, mapFind?, h3, ih]

theorem mapFind?_mapRemove_self (m : Model) (k : List Nat) :
    mapFind? (mapRemove m k) k = none := by
  rw [mapFind?_eq_none_iff]
  intro e he
  have h := List.of_mem_filter he
  simp only [Bool.not_eq_true', beq_eq_false_iff_ne] at h
  exact h

/-- After a `DeletePrefix` operation, no key extending the prefix remains in
the model. -/
theorem mapFind?_applyOperation_deletePre {p k : List Nat} (h : p <+: k) (m : Model) :
    mapFind? (applyOperation m (WriteOperation.deletePre p)) k = none := by
  simp only [applyOperation, foldl_mapRemove]
  rw [mapFind?_eq_none_iff]
  rintro e he rfl
  have hmem := List.mem_filter.mp he
  have hcontains := hmem.2
  have : e.1 ∈ (m.filter (fun e => memInterval e.1 (get_interval p))).map
      (fun e => e.1) := by
    exact List.mem_map.mpr ⟨e, List.mem_filter.mpr ⟨hmem.1, memInterval_of_isPrefix h⟩, rfl⟩
  have h2 : ((m.filter (fun e => memInterval e.1 (get_interval p))).map
      (fun e => e.1)).contains e.1 = true := List.elem_eq_true_of_mem this
  rw [h2] at hcontains
  simp at hcontains

/-- C3: DeletePrefix completeness: for every reference-model state `m` and
prefix `p`, after `update_via_batch` processes a `DeletePrefix p` operation
no key beginning with `p` remains; and applying the batch
`[Put([1,2],[9]), Put([1,3],[9])]` followed by `[DeletePrefix([1])]` to the
empty model yields the empty model. -/
theorem C3_delete_pre_completeness (m : Model) (p k : List Nat) (h : p <+: k) :
    mapFind? (update_via_batch m (Batch.mk [WriteOperation.deletePre p])) k = none ∧
    update_via_batch (update_via_batch [] (Batch.mk [WriteOperation.put [1, 2] [9],
      WriteOperation.put [1, 3] [9]])) (Batch.mk [WriteOperation.deletePre [1]]) = [] :=
  ⟨mapFind?_applyOperation_deletePre h m, by decide⟩

/-- Witness for C3 at `m = [([1,2],[9])]`, `p = [1]`, `k = [1,2]`. -/
theorem C3_delete_pre_completeness_witness :
    [1] <+: [1, 2] ∧
    (mapFind? (update_via_batch [([1, 2], [9])]
        (Batch.mk [WriteOperation.deletePre [1]])) [1, 2] = none ∧
      update_via_batch (update_via_batch [] (Batch.mk [WriteOperation.put [1, 2] [9],
        WriteOperation.put [1, 3] [9]])) (Batch.mk [WriteOperation.deletePre [1]]) = []) :=
  ⟨⟨[2], rfl⟩, C3_delete_pre_completeness [([1, 2], [9])] [1] [1, 2] ⟨[2], rfl⟩⟩

/-- C4: Within-batch order sensitivity of `update_via_batch`: for every
starting model, the batch `[Put(k,v1), Delete(k)]` leaves `k` absent, the
batch `[Delete(k), Put(k,v1)]` leaves `k` present with value `v1`, and the
batch `[Put([5],[1]), Delete([5]), Put([5],[2])]` yields final value `[2]`
at key `[5]`. -/
theorem C4_batch_order_sensitivity (m : Model) (k v1 : List Nat) :
    mapFind? (update_via_batch m (Batch.mk [WriteOperation.put k v1,
      WriteOperation.delete k])) k = none ∧
    mapFind? (update_via_batch m (Batch.mk [WriteOperation.delete k,
      WriteOperation.put k v1])) k = some v1 ∧
    mapFind? (update_via_batch [] (Batch.mk [WriteOperation.put [5] [1],
      WriteOperation.delete [5], WriteOperation.put [5] [2]])) [5] = some [2] := by
  refine ⟨?_, ?_, by decide⟩
  · simp only [update_via_batch, List.foldl_cons, List.foldl_nil, applyOperation]
    exact mapFind?_mapRemove_self _ k
  · simp only [update_via_batch, List.foldl_cons, List.foldl_nil, applyOperation]
    exact mapFind?_mapInsert_self _ k v1

/-- C5: `DeletePrefix` is evaluated against the current mid-batch state: the
batch fold decomposes so that the keys removed by a `DeletePrefix p` sitting
between `ops1` and `ops2` are computed from the model after `ops1` has been
applied; in particular a key `Put` earlier in the same batch and lying in
the prefix range is removed, and `[Put([1],[7]), DeletePrefix([1])]` applied
to the empty model yields the empty model (a before-the-batch snapshot
would have removed nothing). -/
theorem C5_delete_pre_mid_batch (m : Model) (ops1 ops2 : List WriteOperation)
    (p k v : List Nat) (h : p <+: k) :
    update_via_batch m (Batch.mk (ops1 ++ WriteOperation.deletePre p :: ops2)) =
      update_via_batch
        (applyOperation (update_via_batch m (Batch.mk ops1)) (WriteOperation.deletePre p))
        (Batch.mk ops2) ∧
    mapFind? (update_via_batch m (Batch.mk (ops1 ++ [WriteOperation.put k v,
      WriteOperation.deletePre p]))) k = none ∧
    update_via_batch [] (Batch.mk [WriteOperation.put [1] [7],
      WriteOperation.deletePre [1]]) = [] := by
  refine ⟨?_, ?_, by decide⟩
  · simp [update_via_batch, List.foldl_append]
  · simp only [update_via_batch, List.foldl_append, List.foldl_cons, List.foldl_nil]
    exact mapFind?_applyOperation_deletePre h _

/-- Witness for C5 at `m = []`, `ops1 = []`, `ops2 = []`, `p = [1]`,
`k = [1, 2]`, `v = [9]`. -/
theorem C5_delete_pre_mid_batch_witness :
    [1] <+: [1, 2] ∧
    (update_via_batch [] (Batch.mk ([] ++ WriteOperation.deletePre [1] :: [])) =
      update_via_batch
        (applyOperation (update_via_batch [] (Batch.mk [])) (WriteOperation.deletePre [1]))
        (Batch.mk []) ∧
    mapFind? (update_via_batch [] (Batch.mk ([] ++ [WriteOperation.put [1, 2] [9],
      WriteOperation.deletePre [1]]))) [1, 2] = none ∧
    update_via_batch [] (Batch.mk [WriteOperation.put [1] [7],
      WriteOperation.deletePre [1]]) = []) :=
  ⟨⟨[2], rfl⟩, C5_delete_pre_mid_batch [] [] [] [1] [1, 2] [9] ⟨[2], rfl⟩⟩

/-- C8: Idempotence of `Delete` on absent keys: for every model `m` and key
`k` not present in `m`, applying `Delete k` via `update_via_batch` returns a
model equal to `m`. -/
theorem C8_delete_absent_identity (m : Model) (k : List Nat)
    (h : k ∉ m.map (fun e => e.1)) :
    update_via_batch m (Batch.mk [WriteOperation.delete k]) = m := by
  simp only [update_via_batch, List.foldl_cons, List.foldl_nil, applyOperation, mapRemove]
  apply List.filter_eq_self.mpr
  intro e he
  have : e.1 ≠ k := fun hek => h (List.mem_map.mpr ⟨e, he, hek⟩)
  simp [this]

/-- Witness for C8 at `m = [([1],[2])]`, `k = [3]`. -/
theorem C8_delete_absent_identity_witness :
    ([3] ∉ ([([1], [2])] : Model).map (fun e => e.1)) ∧
    update_via_batch [([1], [2])] (Batch.mk [WriteOperation.delete [3]]) = [([1], [2])] :=
  ⟨by decide, C8_delete_absent_identity [([1], [2])] [3] (by decide)⟩

theorem mem_byteInsert (s : List Nat) (x y : Nat) :
    y ∈ byteInsert s x ↔ y = x ∨ y ∈ s := by
  induction s with
  | nil => simp [byteInsert]
  | cons a rest ih =>
    by_cases h1 : x < a
    · simp [byteInsert, h1]
    · by_cases h2 : x = a
      · subst h2
        have hins : byteInsert (x :: rest) x = x :: rest := by simp [byteInsert, h1]
        rw [hins, List.mem_cons]
        tauto
      · have h2' : ¬ ((x == a) = true) := by simp [h2]
        simp only [byteInsert, if_neg h1, if_neg h2', List.mem_cons, ih]
        tauto

theorem update_firsts_ops_subset {ops : List WriteOperation} :
    ∀ {fs fs' : List Nat}, update_firsts_ops fs ops = some fs' → ∀ x ∈ fs, x ∈ fs' := by
  induction ops with
  | nil =>
    intro fs fs' h x hx
    simp only [update_firsts_ops, Option.some.injEq] at h
    exact h ▸ hx
  | cons op rest ih =>
    intro fs fs' h x hx
    simp only [update_firsts_ops] at h
    cases hfe : get_first_entry op with
    | none => rw [hfe] at h; cases h
    | some b =>
      rw [hfe] at h
      exact ih h x ((mem_byteInsert fs b x).mpr (Or.inr hx))

theorem update_firsts_ops_covers {ops : List WriteOperation} :
    ∀ {fs fs' : List Nat}, update_firsts_ops fs ops = some fs' →
      ∀ op ∈ ops, ∃ x, get_first_entry op = some x ∧ x ∈ fs' := by
  induction ops with
  | nil => intro fs fs' _ op hop; cases hop
  | cons op0 rest ih =>
    intro fs fs' h op hop
    simp only [update_firsts_ops] at h
    cases hfe : get_first_entry op0 with
    | none => rw [hfe] at h; cases h
    | some b =>
      rw [hfe] at h
      rcases List.mem_cons.mp hop with rfl | hop'
      · exact ⟨b, hfe, update_firsts_ops_subset h b ((mem_byteInsert fs b b).mpr (Or.inl rfl))⟩
      · exact ih h op hop'

theorem mem_mapInsert {m : Model} {k v : List Nat} {e : List Nat × List Nat}
    (h : e ∈ mapInsert m k v) : e = (k, v) ∨ e ∈ m := by
  induction m with
  | nil => simpa [mapInsert] using h
  | cons e0 rest ih =>
    simp only [mapInsert] at h
    by_cases h1 : ltB k e0.1 = true
    · rw [if_pos h1] at h
      rcases List.mem_cons.mp h with rfl | h' <;> tauto
    · rw [if_neg h1] at h
      by_cases h2 : (k == e0.1) = true
      · rw [if_pos h2] at h
        rcases List.mem_cons.mp h with rfl | h' <;> tauto
      · rw [if_neg h2] at h
        rcases List.mem_cons.mp h with rfl | h'
        · tauto
        · rcases ih h' with h'' | h'' <;> tauto

theorem mem_applyOperation {m : Model} {op : WriteOperation} {e : List Nat × List Nat}
    (h : e ∈ applyOperation m op) :
    e ∈ m ∨ ∃ k v, op = WriteOperation.put k v ∧ e = (k, v) := by
  cases op with
  | put k v =>
    rcases mem_mapInsert h with h' | h'
    · exact Or.inr ⟨k, v, rfl, h'⟩
    · exact Or.inl h'
  | delete k =>
    exact Or.inl (List.mem_of_mem_filter h)
  | deletePre kp =>
    simp only [applyOperation, foldl_mapRemove] at h
    exact Or.inl (List.mem_of_mem_filter h)

theorem mem_update_via_batch {b : Batch} :
    ∀ {m : Model} {e : List Nat × List Nat}, e ∈ update_via_batch m b →
      e ∈ m ∨ ∃ k v, WriteOperation.put k v ∈ b.operations ∧ e = (k, v) := by
  obtain ⟨ops⟩ := b
  simp only [update_via_batch]
  induction ops with
  | nil => intro m e h; exact Or.inl h
  | cons op rest ih =>
    intro m e h
    rw [List.foldl_cons] at h
    rcases ih h with h' | ⟨k, v, hk, rfl⟩
    · rcases mem_applyOperation h' with h'' | ⟨k, v, rfl, rfl⟩
      · exact Or.inl h''
      · exact Or.inr ⟨k, v, List.mem_cons_self _ _, rfl⟩
    · exact Or.inr ⟨k, v, List.mem_cons_of_mem _ hk, rfl⟩

theorem firstByteCovered_mono {fs fs' : List Nat} {k : List Nat}
    (h : firstByteCovered fs k = true) (hsub : ∀ x ∈ fs, x ∈ fs') :
    firstByteCovered fs' k = true := by
  unfold firstByteCovered at h ⊢
  cases hk : k.head? with
  | none => rw [hk] at h; cases h
  | some b =>
    rw [hk] at h
    exact List.elem_eq_true_of_mem (hsub b (List.mem_of_elem_eq_true h))

theorem replayLoop_covered {bs : List Batch} :
    ∀ {st : List Nat × Model} {fs : List Nat} {kv : Model},
      (∀ e ∈ st.2, firstByteCovered st.1 e.1 = true) →
      replayLoop st bs = some (fs, kv) →
      ∀ e ∈ kv, firstByteCovered fs e.1 = true := by
  induction bs with
  | nil =>
    intro st fs kv hinv h
    simp only [replayLoop, Option.some.injEq] at h
    subst h
    exact hinv
  | cons b rest ih =>
    intro st fs kv hinv h
    simp only [replayLoop] at h
    cases hf : update_firsts st.1 b with
    | none => rw [hf] at h; cases h
    | some f1 =>
      rw [hf] at h
      refine ih ?_ h
      intro e he
      rcases mem_update_via_batch he with h' | ⟨k, v, hput, rfl⟩
      · exact firstByteCovered_mono (hinv e h') (update_firsts_ops_subset hf)
      · obtain ⟨x, hx, hxmem⟩ := update_firsts_ops_covers hf _ hput
        simp only [get_first_entry, opKey] at hx
        simp only [firstByteCovered, hx]
        exact List.elem_eq_true_of_mem hxmem

/-- C9: First-byte coverage invariant: after the replay loop of `main` has
processed its batches (each batch through `update_firsts` and then
`update_via_batch`), every key present in the reference model has its first
byte contained in the running first-byte set; consequently the model
restricted to touched first-byte buckets equals the whole model. -/
theorem C9_first_byte_coverage (bs : List Batch) (fs : List Nat) (kv : Model)
    (h : replay bs = some (fs, kv)) :
    (∀ e ∈ kv, firstByteCovered fs e.1 = true) ∧
    kv.filter (fun e => firstByteCovered fs e.1) = kv := by
  have h1 : ∀ e ∈ kv, firstByteCovered fs e.1 = true :=
    @replayLoop_covered bs ([], []) fs kv (fun e he => absurd he (List.not_mem_nil e)) h
  exact ⟨h1, List.filter_eq_self.mpr h1⟩

/-- Witness for C9 on the single batch `[Put([1,2],[9])]`. -/
theorem C9_first_byte_coverage_witness :
    replay [Batch.mk [WriteOperation.put [1, 2] [9]]] = some ([1], [([1, 2], [9])]) ∧
    ((∀ e ∈ ([([1, 2], [9])] : Model), firstByteCovered [1] e.1 = true) ∧
      List.filter (fun e => firstByteCovered [1] e.1) ([([1, 2], [9])] : Model) =
        [([1, 2], [9])]) :=
  ⟨by decide, C9_first_byte_coverage [Batch.mk [WriteOperation.put [1, 2] [9]]] [1]
    [([1, 2], [9])] (by decide)⟩

theorem update_firsts_ops_isSome {ops : List WriteOperation}
    (h : ∀ op ∈ ops, opKey op ≠ []) :
    ∀ fs : List Nat, (update_firsts_ops fs ops).isSome = true := by
  induction ops with
  | nil => intro fs; rfl
  | cons op rest ih =>
    intro fs
    have hne : opKey op ≠ [] := h op (List.mem_cons_self _ _)
    cases hk : opKey op with
    | nil => exact absurd hk hne
    | cons a t =>
      simp only [update_firsts_ops, get_first_entry, hk, List.head?]
      exact ih (fun op' hop' => h op' (List.mem_cons_of_mem _ hop')) _

/-- C10: Non-empty-key requirement of first-byte extraction:
`get_first_entry` reads byte index `0` unconditionally, so when every
operation of a batch has a non-empty key or key prefix, `update_firsts`
succeeds; an operation with an empty key makes the replay loop fail
(modelled by `none`), even though `get_interval` and `update_via_batch`
themselves accept the empty prefix (the empty prefix yields the unbounded
interval and its `DeletePrefix` empties the model). -/
theorem C10_nonempty_key_requirement (fs : List Nat) (b : Batch) (m : Model)
    (h : ∀ op ∈ b.operations, opKey op ≠ []) :
    (update_firsts fs b).isSome = true ∧
    update_firsts fs (Batch.mk [WriteOperation.put [] [0]]) = none ∧
    (∀ st : List Nat × Model, replayLoop st [Batch.mk [WriteOperation.put [] [0]]] = none) ∧
    get_interval [] = (Bound.included [], Bound.unbounded) ∧
    update_via_batch m (Batch.mk [WriteOperation.deletePre []]) = [] := by
  refine ⟨update_firsts_ops_isSome h fs, rfl, fun st => rfl, rfl, ?_⟩
  simp only [update_via_batch, List.foldl_cons, List.foldl_nil, applyOperation,
    foldl_mapRemove]
  apply List.filter_eq_nil_iff.mpr
  intro e he
  have hmem : e.1 ∈ (m.filter (fun e => memInterval e.1 (get_interval []))).map
      (fun e => e.1) :=
    List.mem_map.mpr ⟨e, List.mem_filter.mpr ⟨he, memInterval_of_isPrefix List.nil_prefix⟩,
      rfl⟩
  have hc : ((m.filter (fun e => memInterval e.1 (get_interval []))).map
      (fun e => e.1)).contains e.1 = true := List.elem_eq_true_of_mem hmem
  rw [hc]
  simp

/-- Witness for C10 at `fs = []`, the batch `[Put([1],[2])]`, and
`m = [([3],[4])]`. -/
theorem C10_nonempty_key_requirement_witness :
    (∀ op ∈ (Batch.mk [WriteOperation.put [1] [2]]).operations, opKey op ≠ []) ∧
    ((update_firsts [] (Batch.mk [WriteOperation.put [1] [2]])).isSome = true ∧
      update_firsts [] (Batch.mk [WriteOperation.put [] [0]]) = none ∧
      (∀ st : List Nat × Model,
        replayLoop st [Batch.mk [WriteOperation.put [] [0]]] = none) ∧
      get_interval [] = (Bound.included [], Bound.unbounded) ∧
      update_via_batch [([3], [4])] (Batch.mk [WriteOperation.deletePre []]) = []) :=
  ⟨by decide, C10_nonempty_key_requirement [] (Batch.mk [WriteOperation.put [1] [2]])
    [([3], [4])] (by decide)⟩

theorem mem_setInsert (s : List (List Nat)) (k y : List Nat) :
    y ∈ setInsert s k ↔ y = k ∨ y ∈ s := by
  induction s with
  | nil => simp [setInsert]
  | cons e rest ih =>
    by_cases h1 : ltB k e = true
    · simp [setInsert, h1]
    · by_cases h2 : k = e
      · subst h2
        have hins : setInsert (k :: rest) k = k :: rest := by simp [setInsert, h1]
        rw [hins, List.mem_cons]
        tauto
      · have h2' : ¬ ((k == e) = true) := by simp [h2]
        simp only [setInsert, if_neg h1, if_neg h2', List.mem_cons, ih]
        tauto

theorem sortedB_setInsert {s : List (List Nat)} (hs : SortedB s) (k : List Nat) :
    SortedB (setInsert s k) := by
  induction s with
  | nil => simp [setInsert, SortedB]
  | cons e rest ih =>
    rw [SortedB, List.pairwise_cons] at hs
    obtain ⟨he, hrest⟩ := hs
    by_cases h1 : ltB k e = true
    · have : setInsert (e :: rest) k = k :: e :: rest := by simp [setInsert, h1]
      rw [this, SortedB, List.pairwise_cons]
      refine ⟨?_, List.pairwise_cons.mpr ⟨he, hrest⟩⟩
      intro y hy
      rcases List.mem_cons.mp hy with rfl | hy'
      · exact h1
      · exact ltB_trans h1 (he y hy')
    · by_cases h2 : k = e
      · subst h2
        have : setInsert (k :: rest) k = k :: rest := by simp [setInsert, h1]
        rw [this]
        exact List.pairwise_cons.mpr ⟨he, hrest⟩
      · have h2' : ¬ ((k == e) = true) := by simp [h2]
        have : setInsert (e :: rest) k = e :: setInsert rest k := by
          simp [setInsert, h1, h2']
        rw [this, SortedB, List.pairwise_cons]
        refine ⟨?_, ih hrest⟩
        intro y hy
        rcases (mem_setInsert rest k y).mp hy with rfl | hy'
        · rcases ltB_or_eq_or_gt y e with h | h | h
          · exact absurd h h1
          · exact absurd h h2
          · exact h
        · exact he y hy'

theorem SortedB.nodup {s : List (List Nat)} (hs : SortedB s) : s.Nodup :=
  hs.imp (fun hab heq => by subst heq; rw [ltB_irrefl] at hab; cases hab)

theorem collectSets_sorted (ops : List WriteOperation) :
    ∀ acc, SortedB acc.1 → SortedB acc.2.1 → SortedB acc.2.2 →
      SortedB (collectSets acc ops).1 ∧ SortedB (collectSets acc ops).2.1 ∧
        SortedB (collectSets acc ops).2.2 := by
  induction ops with
  | nil => intro acc h1 h2 h3; exact ⟨h1, h2, h3⟩
  | cons op rest ih =>
    intro acc h1 h2 h3
    cases op with
    | put k v => exact ih _ (sortedB_setInsert h1 k) h2 h3
    | delete k => exact ih _ h1 (sortedB_setInsert h2 k) h3
    | deletePre kp => exact ih _ h1 h2 (sortedB_setInsert h3 kp)

theorem collectSets_mem_fst (ops : List WriteOperation) :
    ∀ acc y, y ∈ (collectSets acc ops).1 ↔
      y ∈ acc.1 ∨ ∃ v, WriteOperation.put y v ∈ ops := by
  induction ops with
  | nil => intro acc y; simp [collectSets]
  | cons op rest ih =>
    intro acc y
    cases op with
    | put k v =>
      rw [collectSets, ih]
      simp only [mem_setInsert, List.mem_cons, WriteOperation.put.injEq]
      constructor
      · rintro ((rfl | h) | ⟨v', h⟩)
        · exact Or.inr ⟨v, Or.inl ⟨rfl, rfl⟩⟩
        · exact Or.inl h
        · exact Or.inr ⟨v', Or.inr h⟩
      · rintro (h | ⟨v', (⟨rfl, rfl⟩ | h)⟩)
        · exact Or.inl (Or.inr h)
        · exact Or.inl (Or.inl rfl)
        · exact Or.inr ⟨v', h⟩
    | delete k =>
      rw [collectSets, ih]
      simp [List.mem_cons]
    | deletePre kp =>
      rw [collectSets, ih]
      simp [List.mem_cons]

theorem collectSets_mem_snd_fst (ops : List WriteOperation) :
    ∀ acc y, y ∈ (collectSets acc ops).2.1 ↔
      y ∈ acc.2.1 ∨ WriteOperation.delete y ∈ ops := by
  induction ops with
  | nil => intro acc y; simp [collectSets]
  | cons op rest ih =>
    intro acc y
    cases op with
    | put k v =>
      rw [collectSets, ih]
      simp [List.mem_cons]
    | delete k =>
      rw [collectSets, ih]
      simp only [mem_setInsert, List.mem_cons, WriteOperation.delete.injEq]
      tauto
    | deletePre kp =>
      rw [collectSets, ih]
      simp [List.mem_cons]

theorem collectSets_mem_snd_snd (ops : List WriteOperation) :
    ∀ acc y, y ∈ (collectSets acc ops).2.2 ↔
      y ∈ acc.2.2 ∨ WriteOperation.deletePre y ∈ ops := by
  induction ops with
  | nil => intro acc y; simp [collectSets]
  | cons op rest ih =>
    intro acc y
    cases op with
    | put k v =>
      rw [collectSets, ih]
      simp [List.mem_cons]
    | delete k =>
      rw [collectSets, ih]
      simp [List.mem_cons]
    | deletePre kp =>
      rw [collectSets, ih]
      simp only [mem_setInsert, List.mem_cons, WriteOperation.deletePre.injEq]
      tauto

theorem mem_specPutKeys (b : Batch) (y : List Nat) :
    y ∈ specPutKeys b ↔ ∃ v, WriteOperation.put y v ∈ b.operations := by
  simp only [specPutKeys, List.mem_toFinset, List.mem_filterMap]
  constructor
  · rintro ⟨op, hop, hsome⟩
    cases op with
    | put k v =>
      simp only [Option.some.injEq] at hsome
      exact ⟨v, hsome ▸ hop⟩
    | delete k => simp at hsome
    | deletePre kp => simp at hsome
  · rintro ⟨v, hv⟩
    exact ⟨WriteOperation.put y v, hv, rfl⟩

theorem mem_specDeleteKeys (b : Batch) (y : List Nat) :
    y ∈ specDeleteKeys b ↔ WriteOperation.delete y ∈ b.operations := by
  simp only [specDeleteKeys, List.mem_toFinset, List.mem_filterMap]
  constructor
  · rintro ⟨op, hop, hsome⟩
    cases op with
    | put k v => simp at hsome
    | delete k =>
      simp only [Option.some.injEq] at hsome
      exact hsome ▸ hop
    | deletePre kp => simp at hsome
  · intro hv
    exact ⟨WriteOperation.delete y, hv, rfl⟩

theorem mem_specPreKeys (b : Batch) (y : List Nat) :
    y ∈ specPreKeys b ↔ WriteOperation.deletePre y ∈ b.operations := by
  simp only [specPreKeys, List.mem_toFinset, List.mem_filterMap]
  constructor
  · rintro ⟨op, hop, hsome⟩
    cases op with
    | put k v => simp at hsome
    | delete k => simp at hsome
    | deletePre kp =>
      simp only [Option.some.injEq] at hsome
      exact hsome ▸ hop
  · intro hv
    exact ⟨WriteOperation.deletePre y, hv, rfl⟩

theorem length_eq_card_of_mem_iff {l : List (List Nat)} {s : Finset (List Nat)}
    (hnd : l.Nodup) (h : ∀ y, y ∈ l ↔ y ∈ s) : l.length = s.card := by
  rw [← List.toFinset_card_of_nodup hnd]
  congr 1
  ext y
  simp only [List.mem_toFinset]
  exact h y

/-- C6: Divergence-diagnostics counts: `detect_collision` reports the sizes
of the sets of distinct Put keys, distinct Delete keys and distinct
DeletePrefix prefixes of the batch, the size of the intersection of the
distinct-Put-key set with the distinct-Delete-key set, and, for each
distinct DeletePrefix prefix (listed without duplication, covering exactly
the batch's prefixes), the number of the batch's distinct Put keys falling
inside that prefix's half-open range as computed by `get_interval`. -/
theorem C6_detect_collision_counts (b : Batch) :
    (detect_collision b).1 = (specPutKeys b).card ∧
    (detect_collision b).2.1 = (specDeleteKeys b).card ∧
    (detect_collision b).2.2.1 = (specPreKeys b).card ∧
    (detect_collision b).2.2.2.1 = (specPutKeys b ∩ specDeleteKeys b).card ∧
    ((collectSets ([], [], []) b.operations).2.2.Nodup ∧
      (∀ y, y ∈ (collectSets ([], [], []) b.operations).2.2 ↔ y ∈ specPreKeys b) ∧
      (detect_collision b).2.2.2.2 =
        (collectSets ([], [], []) b.operations).2.2.map (fun kp => (kp.length,
          ((specPutKeys b).filter
            (fun k => memInterval k (get_interval kp) = true)).card))) := by
  obtain ⟨hs1, hs2, hs3⟩ := collectSets_sorted b.operations ([], [], [])
    List.Pairwise.nil List.Pairwise.nil List.Pairwise.nil
  have memP : ∀ y, y ∈ (collectSets ([], [], []) b.operations).1 ↔ y ∈ specPutKeys b := by
    intro y
    rw [collectSets_mem_fst, mem_specPutKeys]
    simp
  have memD : ∀ y, y ∈ (collectSets ([], [], []) b.operations).2.1 ↔
      y ∈ specDeleteKeys b := by
    intro y
    rw [collectSets_mem_snd_fst, mem_specDeleteKeys]
    simp
  have memR : ∀ y, y ∈ (collectSets ([], [], []) b.operations).2.2 ↔
      y ∈ specPreKeys b := by
    intro y
    rw [collectSets_mem_snd_snd, mem_specPreKeys]
    simp
  refine ⟨?_, ?_, ?_, ?_, hs3.nodup, memR, ?_⟩
  · exact length_eq_card_of_mem_iff hs1.nodup memP
  · exact length_eq_card_of_mem_iff hs2.nodup memD
  · exact length_eq_card_of_mem_iff hs3.nodup memR
  · apply length_eq_card_of_mem_iff (hs1.nodup.filter _)
    intro y
    rw [List.mem_filter, Finset.mem_inter, memP y, ← memD y]
    constructor
    · rintro ⟨h1, h2⟩
      exact ⟨h1, List.mem_of_elem_eq_true h2⟩
    · rintro ⟨h1, h2⟩
      exact ⟨h1, List.elem_eq_true_of_mem h2⟩
  · simp only [detect_collision]
    apply List.map_congr_left
    intro kp _
    refine Prod.ext rfl ?_
    apply length_eq_card_of_mem_iff (hs1.nodup.filter _)
    intro y
    rw [List.mem_filter, Finset.mem_filter, memP y]

example : splitOnList [','] ("1,2").data = [['1'], ['2']] := by decide

example : read_vec ("1, 2").data = some [1, 2] := by decide

example : read_operation 0 ("0: Delete key=[7]").data =
    some (WriteOperation.delete [7]) := by decide

example : read_operation 0 ("0: DeletePrefix key_prefix=[1,255]").data =
    some (WriteOperation.deletePre [1, 255]) := by decide

example : read_operation 0 ("0: Put key=[1,2] |value|=5").data =
    some (WriteOperation.put [1, 2] [0]) := by decide

/-- Counterexample to C7 as stated: the well-formed Put line
`"0: Put key=[1,2] |value|=5"`, whose trailing byte list is `[5]`, decodes
to a `Put` whose value is `[0]`, not `[5]`. -/
theorem C7_counterexample :
    read_operation 0 ("0: Put key=[1,2] |value|=5").data =
      some (WriteOperation.put [1, 2] [0]) ∧ ([0] : List Nat) ≠ [5] :=
  ⟨by decide, by decide⟩

/-- C7 (amended): for every Put line accepted by the decoder, the produced
`WriteOperation::Put` carries the constant value `[0]`; the text after
`|value|=` in the line is ignored (it records only the value's length), so
the decoded value is never taken from the line. -/
theorem C7_put_value_constant (i : Nat) (line : List Char) (k v : List Nat)
    (h : read_operation i line = some (WriteOperation.put k v)) : v = [0] := by
  simp only [read_operation] at h
  repeat' split at h
  all_goals simp_all

/-- Witness for C7 (amended) at the line `"0: Put key=[1,2] |value|=5"`. -/
theorem C7_put_value_constant_witness :
    read_operation 0 ("0: Put key=[1,2] |value|=5").data =
      some (WriteOperation.put [1, 2] [0]) ∧ ([0] : List Nat) = [0] :=
  ⟨by decide, C7_put_value_constant 0 (("0: Put key=[1,2] |value|=5").data) [1, 2] [0]
    (by decide)⟩

end ScyllaBatch
